import Mathlib

/-!
# Logger: the log worker, the hand-off queue, the file writer and the statistics block

A shallow embedding of `lib/logworker/logworker.go`.

Conventions of the embedding.

* A Go `[]byte` value is a view on a backing array. A worker's `buffer` is allocated once by
  `NewLogWorker` and never reallocated, so the worker record carries the contents of that backing
  array (`buffer`) together with its identity (`arr`). A `LogEntry` sent on the hand-off channel
  is the slice header `buffer[0:position]`: the identity of the backing array and a length. The
  bytes of an entry are whatever the backing array holds when the entry is read.
* `len`, `position` and the capacity are Go `int`/`int64` values (`int` of 64 bits) of objects
  that exist in memory, so a sum of two of them does not wrap; they are natural numbers here.
  `int32(length)` wraps and is modelled with its wrap-around; the `uint64` counter
  `TotalRequestsServed` is kept modulo `2^64`.
* A run-time panic (slice bounds out of range, `os.Create` failing in `FileWritter`) is `none`.
* The two channels are FIFO lists. A send on the hand-off channel that finds the channel full
  only waits for the writer; it is modelled by the append that eventually happens.
* Debug printing and the deferred `Close` calls of `FileWritter` (its loop never returns) are
  left out.
-/

namespace logworker

/-- One byte of an event or of a buffer. -/
abbrev Byte := Fin 256

/-- The bytes of a string literal (used for concrete events). -/
def bytes (s : String) : List Byte := s.toList.map (fun c => Fin.ofNat c.toNat)

/-- Go conversion `int32(n)` of an `int`: the low 32 bits, read as a signed number. -/
def toInt32 (n : Int) : Int := (n + 2147483648) % 4294967296 - 2147483648

/-- Go type `LogWorker`. `arr` names the backing array that `buffer` points into and `buffer`
holds that array's contents (`len(w.buffer) = buffer.length`). -/
structure LogWorker where
  FileRoot : String
  arr : Nat
  buffer : List Byte
  position : Nat
  RequestsHandled : Int
  CurrMinRequestSize : Int
  CurrMaxRequestSize : Int
deriving DecidableEq, Repr

/-- Go type `Stats`, the fields the workers and the sampler write. -/
structure Stats where
  TotalRequestsServed : Nat
  CurrMaxRequestSize : Int
  CurrMinRequestSize : Int
  PrevRequestsServed : Nat
  RPS : Int
deriving DecidableEq, Repr

/-- Go type `LogEntry` (`[]byte`): a slice header `array[0:len]`. -/
structure LogEntry where
  arr : Nat
  len : Nat
deriving DecidableEq, Repr

/-- The bytes an entry denotes when it is read while its backing array holds the contents of
`w.buffer` (the entry was cut from worker `w`). -/
def LogEntry.read (e : LogEntry) (w : LogWorker) : List Byte := w.buffer.take e.len

/-- The statistics block as `NewStats` returns it (all counters zero). -/
def NewStats : Stats :=
  { TotalRequestsServed := 0, CurrMaxRequestSize := 0, CurrMinRequestSize := 0,
    PrevRequestsServed := 0, RPS := 0 }

/-- Go `NewLogWorker`: a worker with a fresh zeroed buffer of `bufferCapacity` bytes. The fresh
backing array is named after the worker's `id`. The assignment
`ByteBufferCapacity = bufferCapacity` to the package variable is the `ByteBufferCapacity`
argument the loop body below is run with. -/
def NewLogWorker (id : Nat) (logdir : String) (bufferCapacity : Nat) : LogWorker :=
  { FileRoot := logdir ++ "/" ++ toString id ++ "_",
    arr := id,
    buffer := List.replicate bufferCapacity 0,
    position := 0,
    RequestsHandled := 0,
    CurrMinRequestSize := 0,
    CurrMaxRequestSize := 0 }

/-- Go builtin `copy(dst[pos:], src)`: overwrites `dst` from index `pos` with as many bytes of
`src` as fit; the length of `dst` does not change. -/
def copyAt (dst : List Byte) (pos : Nat) (src : List Byte) : List Byte :=
  dst.take pos ++ src.take (dst.length - pos) ++ dst.drop (pos + min (dst.length - pos) src.length)

/-- Go `(*LogWorker).UpdateStats`: count the request and widen the shared extremes. -/
def UpdateStats (w : LogWorker) (stats : Stats) : Stats :=
  let s1 := { stats with TotalRequestsServed := (stats.TotalRequestsServed + 1) % 2 ^ 64 }
  let s2 := if w.CurrMaxRequestSize > s1.CurrMaxRequestSize then
      { s1 with CurrMaxRequestSize := w.CurrMaxRequestSize } else s1
  if s2.CurrMinRequestSize = 0 ∨ w.CurrMinRequestSize < s2.CurrMinRequestSize then
    { s2 with CurrMinRequestSize := w.CurrMinRequestSize } else s2

/-- Go `(*LogWorker).Save`: nothing when the buffer is empty; otherwise the slice
`w.buffer[0:w.position]` goes on the channel and the position is reset. The slice expression
panics when `position` exceeds the capacity of the buffer. -/
def Save (w : LogWorker) (pending : List LogEntry) : Option (LogWorker × List LogEntry) :=
  if w.position = 0 then some (w, pending)
  else if w.position ≤ w.buffer.length then
    some ({ w with position := 0 }, pending ++ [{ arr := w.arr, len := w.position }])
  else none

/-- One pass of the loop body of Go `(*LogWorker).ListenForLogEvent`, for the received `event`.
`ByteBufferCapacity` is the package variable. -/
def ListenForLogEventStep (ByteBufferCapacity : Nat) (w : LogWorker) (pending : List LogEntry)
    (stats : Stats) (event : List Byte) : Option (LogWorker × List LogEntry × Stats) :=
  let length := event.length
  let w1 : LogWorker :=
    if w.CurrMinRequestSize = 0 then { w with CurrMinRequestSize := toInt32 length }
    else if toInt32 length < w.CurrMinRequestSize then
      { w with CurrMinRequestSize := toInt32 length }
    else w
  let w2 : LogWorker :=
    if w1.CurrMaxRequestSize = 0 then { w1 with CurrMaxRequestSize := toInt32 length }
    else if toInt32 length > w1.CurrMaxRequestSize then
      { w1 with CurrMaxRequestSize := toInt32 length }
    else w1
  if length > ByteBufferCapacity then some (w2, pending, stats)
  else
    match (if length + w2.position > ByteBufferCapacity then Save w2 pending
           else some (w2, pending)) with
    | none => none
    | some (w3, pending3) =>
      if w3.position ≤ w3.buffer.length then
        let w4 : LogWorker :=
          { w3 with buffer := copyAt w3.buffer w3.position event,
                    position := w3.position + length }
        some (w4, pending3, UpdateStats w4 stats)
      else none

/-- The loop of `ListenForLogEvent` over the events received, in order. -/
def ListenForLogEvent (ByteBufferCapacity : Nat) (w : LogWorker) (pending : List LogEntry)
    (stats : Stats) : List (List Byte) → Option (LogWorker × List LogEntry × Stats)
  | [] => some (w, pending, stats)
  | event :: rest =>
    match ListenForLogEventStep ByteBufferCapacity w pending stats event with
    | none => none
    | some (w1, pending1, stats1) => ListenForLogEvent ByteBufferCapacity w1 pending1 stats1 rest

/-- The loop of `ListenForLogEvent` over the events received, which also records, for every
entry sent on the hand-off channel, the bytes that entry denoted at the moment of the send (the
send of a pass comes before its `copy`, so the entry is read against the buffer the pass
started with). -/
def ListenForLogEventTrace (ByteBufferCapacity : Nat) (w : LogWorker) (pending : List LogEntry)
    (stats : Stats) :
    List (List Byte) → Option (LogWorker × List LogEntry × Stats × List (List Byte))
  | [] => some (w, pending, stats, [])
  | event :: rest =>
    match ListenForLogEventStep ByteBufferCapacity w pending stats event with
    | none => none
    | some (w1, pending1, stats1) =>
      match ListenForLogEventTrace ByteBufferCapacity w1 pending1 stats1 rest with
      | none => none
      | some (wf, pendingf, statsf, sent) =>
        some (wf, pendingf, statsf,
          (pending1.drop pending.length).map (fun e => e.read w) ++ sent)

/-- What a run shows of the buffering: the buffer, the position, the hand-off channel and the
bytes sent. -/
def observed (r : LogWorker × List LogEntry × Stats × List (List Byte)) :
    List Byte × Nat × List LogEntry × List (List Byte) :=
  (r.1.buffer, r.1.position, r.2.1, r.2.2.2)

/-- The four events of the end-to-end scenario. -/
def scenarioEvents : List (List Byte) :=
  [bytes "abcde", bytes "fghij", bytes "klmno", bytes "pqrst"]

/-- A Go buffered channel `chan []byte`: its capacity and the events queued in it. -/
structure Chan where
  cap : Nat
  buf : List (List Byte)
deriving DecidableEq, Repr

/-- Go `time.Second`, in nanoseconds. -/
def Second : Nat := 1000000000

/-- Go `Log`, with no receiver running on `channel`: the `select` sends at once when the channel
has room; otherwise only the timer case can fire, after `5 * time.Second`, and the message is
thrown away. The result is the channel afterwards and the time spent waiting. -/
def Log (event : List Byte) (channel : Chan) : Chan × Nat :=
  if channel.buf.length < channel.cap then
    ({ channel with buf := channel.buf ++ [event] }, 0)
  else (channel, 5 * Second)

/-- Successive calls of `Log`, one per event, with no receiver running. -/
def LogAll (channel : Chan) : List (List Byte) → Chan
  | [] => channel
  | event :: rest => LogAll (Log event channel).1 rest

/-- Go type `Config`, the fields `FileWritter` uses. An open `*os.File` is named by the path it
was created at; `none` is the nil handle. -/
structure Config where
  LogDir : String
  CurrentLogFileHandle : Option String
  CurrentLogFile : String
  ForceFsync : Int
  Debug : Int
deriving DecidableEq, Repr

/-- The files on disk: the contents found at a path, if a file is there. -/
abbrev Files := String → Option (List Byte)

/-- Go `os.Create(path)`, when it succeeds: the file is created, or truncated if it exists. -/
def osCreate (fs : Files) (path : String) : Files :=
  fun p => if p = path then some [] else fs p

/-- Go `(*os.File).Write` on the handle opened at `path` by the last `os.Create`: the bytes are
appended to the file. -/
def fileWrite (fs : Files) (path : String) (data : List Byte) : Files :=
  fun p => if p = path then (fs p).map (fun old => old ++ data) else fs p

/-- Go `strings.TrimRight(s, cutset)`: `s` without its trailing characters that are in
`cutset`. -/
def TrimRight (s cutset : String) : String :=
  String.mk ((s.data.reverse.dropWhile (fun c => cutset.data.contains c)).reverse)

/-- The path `FileWritter` creates a log file at, for a rotation key. -/
def logPath (conf : Config) (key : String) : String :=
  TrimRight conf.LogDir "/" ++ "/" ++ key

/-- What the environment supplies to one pass of the `FileWritter` loop: the instants at which
`lfn := GetLogfileName()` is evaluated, at which the argument of `os.Create` is evaluated and at
which the entry is received from the hand-off channel; whether `os.Create` fails; the bytes of
the entry received; how many of them `Write` writes. -/
structure Pass where
  tCheck : Nat
  tCreate : Nat
  tDequeue : Nat
  createFails : Bool
  data : List Byte
  nb : Nat
deriving DecidableEq, Repr

/-- One pass of the loop of Go `FileWritter`. `GetLogfileName` (not part of this file of the
package) is the rotation key as a function of the instant of the call. A failing `os.Create`
panics; `Write` on the nil handle returns an error and the loop goes on; `Sync` does not change
what the files hold. -/
def FileWritterStep (GetLogfileName : Nat → String) (conf : Config) (fs : Files) (p : Pass) :
    Option (Config × Files) :=
  let lfn := GetLogfileName p.tCheck
  let rotated : Option (Config × Files) :=
    if lfn ≠ conf.CurrentLogFile then
      if p.createFails then none
      else
        let path := TrimRight conf.LogDir "/" ++ "/" ++ GetLogfileName p.tCreate
        some ({ conf with CurrentLogFileHandle := some path, CurrentLogFile := lfn },
              osCreate fs path)
    else some (conf, fs)
  match rotated with
  | none => none
  | some (conf1, fs1) =>
    match conf1.CurrentLogFileHandle with
    | none => some (conf1, fs1)
    | some handle => some (conf1, fileWrite fs1 handle (p.data.take p.nb))

/-- The loop of `FileWritter` over successive passes. -/
def FileWritter (GetLogfileName : Nat → String) (conf : Config) (fs : Files) :
    List Pass → Option (Config × Files)
  | [] => some (conf, fs)
  | p :: rest =>
    match FileWritterStep GetLogfileName conf fs p with
    | none => none
    | some (conf1, fs1) => FileWritter GetLogfileName conf1 fs1 rest

/-- The configuration before `FileWritter` starts (`NewConfig` with the log directory set). -/
def startConfig (logDir : String) : Config :=
  { LogDir := logDir, CurrentLogFileHandle := none, CurrentLogFile := "",
    ForceFsync := 0, Debug := 0 }

/-- An empty log directory. -/
def noFiles : Files := fun _ => none

/-- A rotation key that is `before` until instant `t` and `after` from then on. -/
def keySwitch (t : Nat) (before after : String) : Nat → String :=
  fun now => if now < t then before else after

/-- A pass in which `os.Create`, if called, succeeds and `Write` writes the whole entry. -/
def entryPass (tCheck tCreate tDequeue : Nat) (data : List Byte) : Pass :=
  { tCheck := tCheck, tCreate := tCreate, tDequeue := tDequeue, createFails := false,
    data := data, nb := data.length }

/-- The workers of the process, the hand-off channel they share and the shared statistics
block. -/
structure System where
  workers : List LogWorker
  pending : List LogEntry
  stats : Stats
deriving DecidableEq, Repr

/-- The process at startup: `n` workers made by `NewLogWorker` with the same capacity, an empty
hand-off channel and the statistics block of `NewStats`. -/
def startSystem (n : Nat) (logdir : String) (C : Nat) : System :=
  { workers := (List.range n).map (fun i => NewLogWorker i logdir C),
    pending := [],
    stats := NewStats }

/-- Worker number `i` receives `event` from the ingestion channel and runs one whole pass of
its loop body (the tracker updates touch only the worker, `UpdateStats` runs under
`mutexIncr`). With no worker of that number nobody receives the event. -/
def System.step (C : Nat) (s : System) (i : Nat) (event : List Byte) : Option System :=
  match s.workers[i]? with
  | none => some s
  | some w =>
    match ListenForLogEventStep C w s.pending s.stats event with
    | none => none
    | some (w1, pending1, stats1) =>
      some { workers := s.workers.set i w1, pending := pending1, stats := stats1 }

/-- The passes of a schedule, in order: each item names the worker that receives the event. -/
def System.run (C : Nat) (s : System) : List (Nat × List Byte) → Option System
  | [] => some s
  | (i, event) :: rest =>
    match s.step C i event with
    | none => none
    | some s1 => System.run C s1 rest

/-- The value `x` of a tracker is one of the request lengths `L`. -/
def Seen (L : List Nat) (x : Int) : Prop := ∃ a ∈ L, x = (a : Int)

/-- The trackers of a worker, given the lengths `L` processed so far by all workers: still
unset, or both among `L`. -/
def WorkerSeen (L : List Nat) (w : LogWorker) : Prop :=
  (w.CurrMinRequestSize = 0 ∧ w.CurrMaxRequestSize = 0) ∨
  (Seen L w.CurrMinRequestSize ∧ Seen L w.CurrMaxRequestSize)

/-- The extremes of the statistics block, given the lengths `L` processed so far: unset when
nothing was processed, and otherwise the least and the greatest of `L`. -/
def StatsSeen (L : List Nat) (st : Stats) : Prop :=
  (L = [] ∧ st.CurrMinRequestSize = 0 ∧ st.CurrMaxRequestSize = 0) ∨
  (Seen L st.CurrMinRequestSize ∧ Seen L st.CurrMaxRequestSize ∧
    ∀ l ∈ L, st.CurrMinRequestSize ≤ (l : Int) ∧ (l : Int) ≤ st.CurrMaxRequestSize)

/-! ## Auxiliary notions of the proofs -/

/-- The worker after the two tracker updates at the head of the loop body. -/
def widen (w : LogWorker) (length : Nat) : LogWorker :=
  let w1 : LogWorker :=
    if w.CurrMinRequestSize = 0 then { w with CurrMinRequestSize := toInt32 length }
    else if toInt32 length < w.CurrMinRequestSize then
      { w with CurrMinRequestSize := toInt32 length }
    else w
  if w1.CurrMaxRequestSize = 0 then { w1 with CurrMaxRequestSize := toInt32 length }
  else if toInt32 length > w1.CurrMaxRequestSize then
    { w1 with CurrMaxRequestSize := toInt32 length }
  else w1

/-- The buffer invariant of a worker running with capacity `C`. -/
def BufInv (C : Nat) (w : LogWorker) : Prop := w.position ≤ C ∧ w.buffer.length = C

theorem widen_buffer (w : LogWorker) (n : Nat) : (widen w n).buffer = w.buffer := by
  unfold widen; dsimp only; split_ifs <;> rfl

theorem widen_position (w : LogWorker) (n : Nat) : (widen w n).position = w.position := by
  unfold widen; dsimp only; split_ifs <;> rfl

theorem widen_arr (w : LogWorker) (n : Nat) : (widen w n).arr = w.arr := by
  unfold widen; dsimp only; split_ifs <;> rfl

theorem step_eq (C : Nat) (w : LogWorker) (q : List LogEntry) (st : Stats) (ev : List Byte) :
    ListenForLogEventStep C w q st ev =
      if ev.length > C then some (widen w ev.length, q, st)
      else
        match (if ev.length + (widen w ev.length).position > C then Save (widen w ev.length) q
               else some (widen w ev.length, q)) with
        | none => none
        | some (w3, q3) =>
          if w3.position ≤ w3.buffer.length then
            some ({ w3 with buffer := copyAt w3.buffer w3.position ev,
                            position := w3.position + ev.length }, q3,
                  UpdateStats { w3 with buffer := copyAt w3.buffer w3.position ev,
                                        position := w3.position + ev.length } st)
          else none := rfl

theorem copyAt_length (dst : List Byte) (pos : Nat) (src : List Byte) (h : pos ≤ dst.length) :
    (copyAt dst pos src).length = dst.length := by
  unfold copyAt
  simp only [List.length_append, List.length_take, List.length_drop]
  omega

theorem copyAt_take (dst : List Byte) (pos : Nat) (src : List Byte)
    (h : pos + src.length ≤ dst.length) :
    (copyAt dst pos src).take (pos + src.length) = dst.take pos ++ src := by
  unfold copyAt
  have h1 : src.take (dst.length - pos) = src := List.take_of_length_le (by omega)
  rw [h1, List.append_assoc, List.take_append_eq_append_take]
  have h2 : (dst.take pos).length = pos := by simp; omega
  rw [h2, List.take_of_length_le (by omega : (dst.take pos).length ≤ pos + src.length)]
  have h3 : pos + src.length - pos = src.length := by omega
  rw [h3, List.take_append_eq_append_take]
  simp

/-- A dropped event: the step only moves the trackers. -/
theorem step_drop (C : Nat) (w : LogWorker) (q : List LogEntry) (st : Stats) (ev : List Byte)
    (h : ev.length > C) :
    ListenForLogEventStep C w q st ev = some (widen w ev.length, q, st) := by
  rw [step_eq, if_pos h]

/-- An event that fits behind the bytes already buffered. -/
theorem step_fit (C : Nat) (w : LogWorker) (q : List LogEntry) (st : Stats) (ev : List Byte)
    (hw : BufInv C w) (h : ev.length + w.position ≤ C) :
    ListenForLogEventStep C w q st ev =
      some ({ widen w ev.length with
                buffer := copyAt w.buffer w.position ev,
                position := w.position + ev.length }, q,
            UpdateStats { widen w ev.length with
                buffer := copyAt w.buffer w.position ev,
                position := w.position + ev.length } st) := by
  obtain ⟨hp, hl⟩ := hw
  rw [step_eq, if_neg (by omega), widen_position, if_neg (by omega)]
  simp only [widen_position, widen_buffer]
  rw [if_pos (by omega)]

/-- An event that does not fit behind the bytes already buffered: the buffer is sent first. -/
theorem step_flush (C : Nat) (w : LogWorker) (q : List LogEntry) (st : Stats) (ev : List Byte)
    (hw : BufInv C w) (h1 : ev.length ≤ C) (h2 : ev.length + w.position > C) :
    ListenForLogEventStep C w q st ev =
      some ({ widen w ev.length with
                buffer := copyAt w.buffer 0 ev,
                position := 0 + ev.length },
            q ++ [{ arr := (widen w ev.length).arr, len := w.position }],
            UpdateStats { widen w ev.length with
                buffer := copyAt w.buffer 0 ev,
                position := 0 + ev.length } st) := by
  obtain ⟨hp, hl⟩ := hw
  rw [step_eq, if_neg (by omega), widen_position, if_pos h2]
  unfold Save
  rw [widen_position, widen_buffer, if_neg (by omega), if_pos (by omega)]
  simp only [widen_buffer]
  rw [if_pos (by omega)]

theorem widen_BufInv (C : Nat) (w : LogWorker) (n : Nat) (hw : BufInv C w) :
    BufInv C (widen w n) := by
  unfold BufInv; rw [widen_position, widen_buffer]; exact hw

theorem newLogWorker_BufInv (id : Nat) (logdir : String) (C : Nat) :
    BufInv C (NewLogWorker id logdir C) := by
  simp [BufInv, NewLogWorker]

/-- The trace run agrees with the plain run. -/
theorem trace_fst (C : Nat) (evs : List (List Byte)) :
    ∀ (w : LogWorker) (q : List LogEntry) (st : Stats),
      (ListenForLogEventTrace C w q st evs).map (fun r => (r.1, r.2.1, r.2.2.1)) =
        ListenForLogEvent C w q st evs := by
  induction evs with
  | nil => intro w q st; rfl
  | cons ev rest ih =>
    intro w q st
    unfold ListenForLogEventTrace ListenForLogEvent
    cases hs : ListenForLogEventStep C w q st ev with
    | none => rfl
    | some r =>
      obtain ⟨w1, q1, st1⟩ := r
      dsimp only
      rw [← ih w1 q1 st1]
      cases ListenForLogEventTrace C w1 q1 st1 rest with
      | none => rfl
      | some r2 => rfl

/-- The run of a worker that satisfies the buffer invariant never panics; the accepted events
(those no longer than the capacity) split into consecutive groups of whole events: every entry
sent denoted, when sent, the concatenation of one group, and the last group is what the buffer
holds below `position`. `cur` are the events buffered before the run. -/
theorem run_groups (C : Nat) (evs : List (List Byte)) :
    ∀ (w : LogWorker) (q : List LogEntry) (st : Stats) (cur : List (List Byte)),
      BufInv C w → w.buffer.take w.position = cur.flatten →
      ∃ wf qf sf sent gs last,
        ListenForLogEventTrace C w q st evs = some (wf, qf, sf, sent) ∧
        BufInv C wf ∧ wf.arr = w.arr ∧
        gs.flatten ++ last = cur ++ evs.filter (fun e => e.length ≤ C) ∧
        sent = gs.map List.flatten ∧
        qf = q ++ sent.map (fun b => { arr := w.arr, len := b.length }) ∧
        wf.buffer.take wf.position = last.flatten ∧
        wf.position = last.flatten.length ∧
        (gs = [] → last = cur ++ evs.filter (fun e => e.length ≤ C)) := by
  induction evs with
  | nil =>
    intro w q st cur hw hc
    refine ⟨w, q, st, [], [], cur, rfl, hw, rfl, by simp, rfl, by simp, hc, ?_, by simp⟩
    have := congrArg List.length hc
    rw [List.length_take] at this
    have h2 := hw.1; have h3 := hw.2
    omega
  | cons ev rest ih =>
    intro w q st cur hw hc
    have hlen : w.position = cur.flatten.length := by
      have := congrArg List.length hc
      rw [List.length_take] at this
      have h2 := hw.1; have h3 := hw.2
      omega
    unfold ListenForLogEventTrace
    by_cases hbig : ev.length > C
    · -- dropped
      rw [step_drop C w q st ev hbig]
      dsimp only
      obtain ⟨wf, qf, sf, sent, gs, last, hrun, hinv, harr, hgs, hsent, hq, hbuf, hpos, hnil⟩ :=
        ih (widen w ev.length) q st cur (widen_BufInv C w _ hw)
          (by rw [widen_buffer, widen_position]; exact hc)
      rw [hrun]
      have hf : (ev :: rest).filter (fun e => e.length ≤ C) =
          rest.filter (fun e => e.length ≤ C) := by
        rw [List.filter_cons_of_neg]; simp; omega
      refine ⟨wf, qf, sf, sent, gs, last, ?_, hinv, ?_, ?_, hsent, ?_, hbuf, hpos, ?_⟩
      · simp
      · rw [harr, widen_arr]
      · rw [hf]; exact hgs
      · rw [hq, widen_arr]
      · rw [hf]; exact hnil
    · have hle : ev.length ≤ C := by omega
      have hf : (ev :: rest).filter (fun e => e.length ≤ C) =
          ev :: rest.filter (fun e => e.length ≤ C) := by
        rw [List.filter_cons_of_pos]; simpa using hle
      by_cases hfit : ev.length + w.position ≤ C
      · -- appended behind the buffered bytes
        rw [step_fit C w q st ev hw hfit]
        dsimp only
        have hw' : BufInv C { widen w ev.length with
            buffer := copyAt w.buffer w.position ev,
            position := w.position + ev.length } := by
          refine ⟨by show w.position + ev.length ≤ C; omega, ?_⟩
          show (copyAt w.buffer w.position ev).length = C
          rw [copyAt_length _ _ _ (by have := hw.1; have := hw.2; omega)]; exact hw.2
        obtain ⟨wf, qf, sf, sent, gs, last, hrun, hinv, harr, hgs, hsent, hq, hbuf, hpos,
            hnil⟩ :=
          ih _ q (UpdateStats { widen w ev.length with
            buffer := copyAt w.buffer w.position ev,
            position := w.position + ev.length } st) (cur ++ [ev]) hw'
            (by
              show (copyAt w.buffer w.position ev).take (w.position + ev.length) = _
              rw [copyAt_take _ _ _ (by have := hw.2; omega), hc]; simp)
        rw [hrun]
        refine ⟨wf, qf, sf, sent, gs, last, ?_, hinv, ?_, ?_, hsent, ?_, hbuf, hpos, ?_⟩
        · simp
        · rw [harr]; exact widen_arr w _
        · rw [hf, hgs]; simp
        · rw [hq]; show _ = q ++ sent.map (fun b => { arr := w.arr, len := b.length })
          congr 2
          funext b
          show LogEntry.mk (widen w ev.length).arr b.length = _
          rw [widen_arr]
        · intro h; rw [hf, hnil h]; simp
      · -- the buffer is sent, the event starts a new buffer
        have hover : ev.length + w.position > C := by omega
        rw [step_flush C w q st ev hw hle hover]
        dsimp only
        have hw' : BufInv C { widen w ev.length with
            buffer := copyAt w.buffer 0 ev,
            position := 0 + ev.length } := by
          refine ⟨by show 0 + ev.length ≤ C; omega, ?_⟩
          show (copyAt w.buffer 0 ev).length = C
          rw [copyAt_length _ _ _ (by omega)]; exact hw.2
        obtain ⟨wf, qf, sf, sent, gs, last, hrun, hinv, harr, hgs, hsent, hq, hbuf, hpos,
            hnil⟩ :=
          ih _ (q ++ [{ arr := (widen w ev.length).arr, len := w.position }])
            (UpdateStats { widen w ev.length with
              buffer := copyAt w.buffer 0 ev,
              position := 0 + ev.length } st) [ev] hw'
            (by
              show (copyAt w.buffer 0 ev).take (0 + ev.length) = _
              rw [copyAt_take _ _ _ (by have := hw.2; omega)]; simp)
        rw [hrun]
        refine ⟨wf, qf, sf, cur.flatten :: sent, cur :: gs, last, ?_, hinv, ?_, ?_, ?_, ?_,
          hbuf, hpos, ?_⟩
        · simp [LogEntry.read, hc]
        · rw [harr]; exact widen_arr w _
        · rw [hf, List.flatten_cons, List.append_assoc, hgs]; simp
        · rw [hsent]; rfl
        · rw [hq, widen_arr]
          show _ = q ++ (cur.flatten :: sent).map (fun b => { arr := w.arr, len := b.length })
          rw [List.map_cons, ← hlen]
          simp
        · intro h; exact absurd h (by simp)

/-- A run whose events all fit behind the buffered bytes sends nothing and holds the events in
order. -/
theorem run_fit (C : Nat) (evs : List (List Byte)) :
    ∀ (w : LogWorker) (q : List LogEntry) (st : Stats),
      BufInv C w → w.position + (evs.map List.length).sum ≤ C →
      ∃ wf sf, ListenForLogEvent C w q st evs = some (wf, q, sf) ∧ BufInv C wf ∧
        wf.arr = w.arr ∧
        wf.position = w.position + (evs.map List.length).sum ∧
        wf.buffer.take wf.position = w.buffer.take w.position ++ evs.flatten := by
  induction evs with
  | nil => intro w q st hw _; exact ⟨w, st, rfl, hw, rfl, by simp, by simp⟩
  | cons ev rest ih =>
    intro w q st hw hsum
    simp only [List.map_cons, List.sum_cons] at hsum
    unfold ListenForLogEvent
    rw [step_fit C w q st ev hw (by omega)]
    dsimp only
    have hw' : BufInv C { widen w ev.length with
        buffer := copyAt w.buffer w.position ev,
        position := w.position + ev.length } := by
      refine ⟨by show w.position + ev.length ≤ C; omega, ?_⟩
      show (copyAt w.buffer w.position ev).length = C
      rw [copyAt_length _ _ _ (by have := hw.1; have := hw.2; omega)]; exact hw.2
    obtain ⟨wf, sf, hrun, hinv, harr, hpos, hbuf⟩ := ih _ q
      (UpdateStats { widen w ev.length with
        buffer := copyAt w.buffer w.position ev,
        position := w.position + ev.length } st) hw'
      (by show w.position + ev.length + _ ≤ C; omega)
    refine ⟨wf, sf, hrun, hinv, ?_, ?_, ?_⟩
    · rw [harr]; exact widen_arr w _
    · rw [hpos]; show w.position + ev.length + _ = _
      simp only [List.map_cons, List.sum_cons]; omega
    · rw [hbuf]
      show (copyAt w.buffer w.position ev).take (w.position + ev.length) ++ _ = _
      rw [copyAt_take _ _ _ (by have := hw.2; omega)]; simp

theorem sum_take_le (l : List Nat) (k : Nat) : (l.take k).sum ≤ l.sum := by
  conv_rhs => rw [← List.take_append_drop k l, List.sum_append]
  omega

/-- C1: a worker made by `NewLogWorker` with capacity `C` that receives events of cumulative
length at most `C` sends nothing on the hand-off channel, after any number of them; a `Save`
that follows leaves the channel alone when no byte was received, and otherwise sends exactly one
entry, which reads as the concatenation of the events in order, and resets `position` to 0. -/
theorem save_after_unflushed_run (id : Nat) (logdir : String) (C : Nat) (q : List LogEntry)
    (st : Stats) (evs : List (List Byte)) (h : (evs.map List.length).sum ≤ C) :
    (∀ k, ∃ wk sk, ListenForLogEvent C (NewLogWorker id logdir C) q st (evs.take k) =
        some (wk, q, sk)) ∧
    ∃ w sf, ListenForLogEvent C (NewLogWorker id logdir C) q st evs = some (w, q, sf) ∧
      (evs.flatten = [] → Save w q = some (w, q) ∧ w.position = 0) ∧
      (evs.flatten ≠ [] → ∃ w1 e, Save w q = some (w1, q ++ [e]) ∧
        e.read w1 = evs.flatten ∧ e.len = evs.flatten.length ∧ w1.position = 0) := by
  have h0 : (NewLogWorker id logdir C).position = 0 := rfl
  constructor
  · intro k
    obtain ⟨wk, sk, hrun, -⟩ := run_fit C (evs.take k) (NewLogWorker id logdir C) q st
      (newLogWorker_BufInv id logdir C) (by
        rw [h0, Nat.zero_add, List.map_take]
        exact le_trans (sum_take_le _ k) h)
    exact ⟨wk, sk, hrun⟩
  · obtain ⟨w, sf, hrun, hinv, -, hpos, hbuf⟩ := run_fit C evs (NewLogWorker id logdir C) q st
      (newLogWorker_BufInv id logdir C) (by rw [h0, Nat.zero_add]; exact h)
    rw [h0, List.take_zero, List.nil_append] at hbuf
    rw [h0, Nat.zero_add] at hpos
    have hlen : w.position = evs.flatten.length := by
      have := congrArg List.length hbuf
      rw [List.length_take] at this
      have h2 := hinv.1; have h3 := hinv.2
      omega
    refine ⟨w, sf, hrun, ?_, ?_⟩
    · intro he
      have hz : w.position = 0 := by rw [hlen, he]; rfl
      exact ⟨by unfold Save; rw [if_pos hz], hz⟩
    · intro he
      have hnz : w.position ≠ 0 := by
        rw [hlen]; exact fun hc => he (List.length_eq_zero.mp hc)
      refine ⟨{ w with position := 0 }, { arr := w.arr, len := w.position }, ?_, ?_, ?_, rfl⟩
      · unfold Save
        rw [if_neg hnz, if_pos (by have := hinv.1; have := hinv.2; omega)]
      · exact hbuf
      · exact hlen

/-- Witness of C1: capacity 16 and the events "abcde", "fghij", "klmno" (15 bytes). -/
theorem save_after_unflushed_run_witness :
    (([bytes "abcde", bytes "fghij", bytes "klmno"].map List.length).sum ≤ 16) ∧
    ∃ w sf, ListenForLogEvent 16 (NewLogWorker 0 "logs" 16) [] NewStats
        [bytes "abcde", bytes "fghij", bytes "klmno"] = some (w, [], sf) ∧
      ([bytes "abcde", bytes "fghij", bytes "klmno"].flatten = [] →
        Save w [] = some (w, []) ∧ w.position = 0) ∧
      ([bytes "abcde", bytes "fghij", bytes "klmno"].flatten ≠ [] → ∃ w1 e,
        Save w [] = some (w1, [] ++ [e]) ∧
        e.read w1 = [bytes "abcde", bytes "fghij", bytes "klmno"].flatten ∧
        e.len = [bytes "abcde", bytes "fghij", bytes "klmno"].flatten.length ∧
        w1.position = 0) :=
  ⟨by decide, (save_after_unflushed_run 0 "logs" 16 [] NewStats
    [bytes "abcde", bytes "fghij", bytes "klmno"] (by decide)).2⟩

theorem filter_fits (C : Nat) (evs : List (List Byte)) (h : ∀ e ∈ evs, e.length ≤ C) :
    evs.filter (fun e => e.length ≤ C) = evs := by
  rw [List.filter_eq_self]
  intro e he
  simpa using h e he

/-- The timing of the flush, for events no longer than the capacity received by one worker.
Over the whole run the events split into consecutive groups of whole events: every entry sent on
the hand-off channel denoted, at the moment of the send, the concatenation of one group, and the
last group is what the buffer holds. In one pass from any state within the buffer invariant: if
the event fits nothing is sent; if `len(event) + position > capacity` the slice
`buffer[0:position]` is sent before the copy, and after the pass the buffer begins with the
whole event and `position = len(event)`. Nothing is said here of what a sent entry reads once the
copy of the same pass has run. -/
theorem flush_timing (id : Nat) (logdir : String) (C : Nat) (q : List LogEntry)
    (st : Stats) (evs : List (List Byte)) (h : ∀ e ∈ evs, e.length ≤ C) :
    (∃ wf qf sf sent, ∃ (gs : List (List (List Byte))) (last : List (List Byte)),
      ListenForLogEventTrace C (NewLogWorker id logdir C) q st evs = some (wf, qf, sf, sent) ∧
      gs.flatten ++ last = evs ∧
      sent = gs.map List.flatten ∧
      qf = q ++ sent.map (fun b => { arr := id, len := b.length }) ∧
      wf.buffer.take wf.position = last.flatten ∧
      wf.position = last.flatten.length) ∧
    (∀ (w : LogWorker) (q1 : List LogEntry) (s1 : Stats) (ev : List Byte),
      BufInv C w → ev.length ≤ C →
      ∃ w2 q2 s2, ListenForLogEventStep C w q1 s1 ev = some (w2, q2, s2) ∧
        (ev.length + w.position ≤ C → q2 = q1 ∧ w2.position = w.position + ev.length ∧
          w2.buffer.take w2.position = w.buffer.take w.position ++ ev) ∧
        (ev.length + w.position > C →
          q2 = q1 ++ [{ arr := w.arr, len := w.position }] ∧
          (LogEntry.mk w.arr w.position).read w = w.buffer.take w.position ∧
          0 < w.position ∧
          w2.position = ev.length ∧ w2.buffer.take ev.length = ev)) ∧
    (ListenForLogEventTrace 16 (NewLogWorker 0 "logs" 16) [] NewStats scenarioEvents).map
        (fun r => (r.1.buffer.take r.1.position, r.1.position, r.2.1, r.2.2.2)) =
      some (bytes "pqrst", 5, [{ arr := 0, len := 15 }], [bytes "abcdefghijklmno"]) := by
  refine ⟨?_, ?_, by decide⟩
  · obtain ⟨wf, qf, sf, sent, gs, last, hrun, -, -, hgs, hsent, hq, hbuf, hpos, -⟩ :=
      run_groups C evs (NewLogWorker id logdir C) q st [] (newLogWorker_BufInv id logdir C) rfl
    rw [filter_fits C evs h, List.nil_append] at hgs
    exact ⟨wf, qf, sf, sent, gs, last, hrun, hgs, hsent, hq, hbuf, hpos⟩
  · intro w q1 s1 ev hw hle
    by_cases hfit : ev.length + w.position ≤ C
    · refine ⟨_, _, _, step_fit C w q1 s1 ev hw hfit, ?_, ?_⟩
      · intro _
        refine ⟨rfl, rfl, ?_⟩
        show (copyAt w.buffer w.position ev).take (w.position + ev.length) = _
        rw [copyAt_take _ _ _ (by have := hw.2; omega)]
      · intro hc; omega
    · have hover : ev.length + w.position > C := by omega
      refine ⟨_, _, _, step_flush C w q1 s1 ev hw hle hover, ?_, ?_⟩
      · intro hc; omega
      · intro _
        refine ⟨by rw [widen_arr], rfl, by omega, ?_, ?_⟩
        · show 0 + ev.length = ev.length
          omega
        · show (copyAt w.buffer 0 ev).take ev.length = ev
          have := copyAt_take w.buffer 0 ev (by have := hw.2; omega)
          rw [Nat.zero_add] at this
          rw [this]; simp

/-- C3, evaluated on the code. Capacity 16 and the events "abcde", "fghij", "klmno", "pqrst":
one entry of 15 bytes is sent before the fourth event is copied and denoted "abcdefghijklmno" at
the send, the buffer is left starting with "pqrst" at position 5, and the entry on the hand-off
channel after that pass reads "pqrstfghijklmno". Capacity 8 and the events "aaaaa", "bbbbb",
"ccc", "dddddd": the two entries sent denoted "aaaaa" and "bbbbbccc" at their sends, and on the
channel after the run they read "ddddd" and "ddddddcc", so the last event lies across both. -/
theorem flushed_entry_clobbered_by_same_pass :
    (ListenForLogEventTrace 16 (NewLogWorker 0 "logs" 16) [] NewStats scenarioEvents).map
        (fun r => (r.2.2.2, r.1.buffer.take r.1.position, r.1.position)) =
      some ([bytes "abcdefghijklmno"], bytes "pqrst", 5) ∧
    (ListenForLogEventTrace 16 (NewLogWorker 0 "logs" 16) [] NewStats scenarioEvents).map
        (fun r => (r.2.1, r.2.1.map (fun e => e.read r.1))) =
      some ([{ arr := 0, len := 15 }], [bytes "pqrstfghijklmno"]) ∧
    (ListenForLogEventTrace 8 (NewLogWorker 0 "logs" 8) [] NewStats
        [bytes "aaaaa", bytes "bbbbb", bytes "ccc", bytes "dddddd"]).map
        (fun r => (r.2.2.2, r.2.1, r.2.1.map (fun e => e.read r.1))) =
      some ([bytes "aaaaa", bytes "bbbbbccc"],
        [{ arr := 0, len := 5 }, { arr := 0, len := 8 }],
        [bytes "ddddd", bytes "ddddddcc"]) := by
  refine ⟨?_, ?_, ?_⟩
  · decide
  · decide
  · decide

/-- The buffering part of a pass depends on the worker only through its backing array, its
buffer contents and its position (not on the trackers or the statistics). -/
theorem step_core (C : Nat) (w1 w2 : LogWorker) (q : List LogEntry) (s1 s2 : Stats)
    (ev : List Byte) (ha : w1.arr = w2.arr) (hb : w1.buffer = w2.buffer)
    (hp : w1.position = w2.position) :
    (ListenForLogEventStep C w1 q s1 ev).map (fun r => (r.1.arr, r.1.buffer, r.1.position, r.2.1))
      = (ListenForLogEventStep C w2 q s2 ev).map
          (fun r => (r.1.arr, r.1.buffer, r.1.position, r.2.1)) := by
  rw [step_eq, step_eq]
  by_cases hbig : ev.length > C
  · rw [if_pos hbig, if_pos hbig]
    simp only [Option.map_some', widen_arr, widen_buffer, widen_position, ha, hb, hp]
  · rw [if_neg hbig, if_neg hbig]
    simp only [widen_position, hp]
    by_cases hover : ev.length + w2.position > C
    · rw [if_pos hover, if_pos hover]
      unfold Save
      simp only [widen_position, widen_buffer, widen_arr, ha, hb, hp]
      by_cases hz : w2.position = 0
      · rw [if_pos hz, if_pos hz]
        simp only [widen_position, widen_buffer, widen_arr, ha, hb, hp]
        split_ifs <;> simp [widen_arr, ha]
      · rw [if_neg hz, if_neg hz]
        by_cases hr : w2.position ≤ w2.buffer.length
        · rw [if_pos hr, if_pos hr]
          simp [widen_arr, widen_buffer, ha, hb]
        · rw [if_neg hr, if_neg hr]
    · rw [if_neg hover, if_neg hover]
      simp only [widen_position, widen_buffer, widen_arr, ha, hb, hp]
      split_ifs <;> simp [widen_arr, ha]

/-- Two workers with the same backing array, buffer and position show the same buffering over
any run. -/
theorem trace_core (C : Nat) (evs : List (List Byte)) :
    ∀ (w1 w2 : LogWorker) (q : List LogEntry) (s1 s2 : Stats),
      w1.arr = w2.arr → w1.buffer = w2.buffer → w1.position = w2.position →
      (ListenForLogEventTrace C w1 q s1 evs).map observed =
        (ListenForLogEventTrace C w2 q s2 evs).map observed := by
  induction evs with
  | nil =>
    intro w1 w2 q s1 s2 _ hb hp
    simp [ListenForLogEventTrace, observed, hb, hp]
  | cons ev rest ih =>
    intro w1 w2 q s1 s2 ha hb hp
    have hstep := step_core C w1 w2 q s1 s2 ev ha hb hp
    unfold ListenForLogEventTrace
    cases h1 : ListenForLogEventStep C w1 q s1 ev with
    | none =>
      rw [h1] at hstep
      cases h2 : ListenForLogEventStep C w2 q s2 ev with
      | none => rfl
      | some r2 => rw [h2] at hstep; simp at hstep
    | some r1 =>
      rw [h1] at hstep
      cases h2 : ListenForLogEventStep C w2 q s2 ev with
      | none => rw [h2] at hstep; simp at hstep
      | some r2 =>
        rw [h2] at hstep
        obtain ⟨a1, q1, t1⟩ := r1
        obtain ⟨a2, q2, t2⟩ := r2
        simp only [Option.map_some', Option.some.injEq, Prod.mk.injEq] at hstep
        obtain ⟨e1, e2, e3, e4⟩ := hstep
        subst e4
        have hrec := ih a1 a2 q1 t1 t2 e1 e2 e3
        dsimp only
        cases h3 : ListenForLogEventTrace C a1 q1 t1 rest with
        | none =>
          rw [h3] at hrec
          cases h4 : ListenForLogEventTrace C a2 q1 t2 rest with
          | none => rfl
          | some r4 => rw [h4] at hrec; simp at hrec
        | some r3 =>
          rw [h3] at hrec
          cases h4 : ListenForLogEventTrace C a2 q1 t2 rest with
          | none => rw [h4] at hrec; simp at hrec
          | some r4 =>
            rw [h4] at hrec
            obtain ⟨b1, p1, u1, n1⟩ := r3
            obtain ⟨b2, p2, u2, n2⟩ := r4
            simp only [Option.map_some', Option.some.injEq, observed, Prod.mk.injEq] at hrec ⊢
            obtain ⟨f1, f2, f3, f4⟩ := hrec
            refine ⟨f1, f2, f3, ?_⟩
            rw [f4]
            simp [LogEntry.read, hb]

/-- C4: an event longer than the capacity is dropped by the pass that receives it, from every
worker state. Nothing is sent, the statistics, the position, the buffer and the backing array
are as before, and the worker goes on: over every run of further events the buffer, the
position, the hand-off channel and the bytes sent are those of the run in which the oversized
event was never received. -/
theorem oversized_event_dropped (C : Nat) (w : LogWorker) (q : List LogEntry) (st : Stats)
    (ev : List Byte) (h : ev.length > C) :
    ∃ w1, ListenForLogEventStep C w q st ev = some (w1, q, st) ∧
      w1.position = w.position ∧ w1.buffer = w.buffer ∧ w1.arr = w.arr ∧
      ∀ evs, (ListenForLogEventTrace C w q st (ev :: evs)).map observed =
        (ListenForLogEventTrace C w q st evs).map observed := by
  refine ⟨widen w ev.length, step_drop C w q st ev h, widen_position w _, widen_buffer w _,
    widen_arr w _, ?_⟩
  intro evs
  have hcore := trace_core C evs (widen w ev.length) w q st st (widen_arr w _)
    (widen_buffer w _) (widen_position w _)
  rw [← hcore]
  conv_lhs => unfold ListenForLogEventTrace
  rw [step_drop C w q st ev h]
  dsimp only
  cases ListenForLogEventTrace C (widen w ev.length) q st evs with
  | none => rfl
  | some r => simp [observed]

/-- Witness of C4: a worker of capacity 4 holding "ab" receives the 5-byte event "vwxyz" and
then "cd"; the buffer holds "abcd" and "vwxyz" is nowhere. -/
theorem oversized_event_dropped_witness :
    (bytes "vwxyz").length > 4 ∧
    (ListenForLogEventTrace 4 (NewLogWorker 0 "logs" 4) [] NewStats
        [bytes "ab", bytes "vwxyz", bytes "cd"]).map observed =
      some (bytes "abcd", 4, [], []) ∧
    ∃ w1, ListenForLogEventStep 4 (NewLogWorker 0 "logs" 4) [] NewStats (bytes "vwxyz") =
        some (w1, [], NewStats) ∧
      w1.position = (NewLogWorker 0 "logs" 4).position ∧
      w1.buffer = (NewLogWorker 0 "logs" 4).buffer ∧ w1.arr = (NewLogWorker 0 "logs" 4).arr ∧
      ∀ evs, (ListenForLogEventTrace 4 (NewLogWorker 0 "logs" 4) [] NewStats
          (bytes "vwxyz" :: evs)).map observed =
        (ListenForLogEventTrace 4 (NewLogWorker 0 "logs" 4) [] NewStats evs).map observed :=
  ⟨by decide, by decide,
    oversized_event_dropped 4 (NewLogWorker 0 "logs" 4) [] NewStats (bytes "vwxyz") (by decide)⟩

/-- C8: for a worker made by `NewLogWorker` with capacity `C`, run with the package capacity
`C`, the invariant `position ≤ C = len(buffer)` holds at the start and is kept by every pass of
the loop body, for an event of any length, and by every `Save`; neither panics. An accepted event
is copied in full at the position `p` the copy starts from (`p + len(event) ≤ C`). Over every run
from the new worker, `position` is the number of bytes of the accepted events copied since the
last send, and those bytes are what the buffer holds below `position`. -/
theorem buffer_invariant (id : Nat) (logdir : String) (C : Nat) (q : List LogEntry) (st : Stats)
    (evs : List (List Byte)) :
    BufInv C (NewLogWorker id logdir C) ∧
    (∀ (w : LogWorker) (q1 : List LogEntry) (s1 : Stats) (ev : List Byte), BufInv C w →
      ∃ w2 q2 s2, ListenForLogEventStep C w q1 s1 ev = some (w2, q2, s2) ∧ BufInv C w2 ∧
        (ev.length ≤ C → ∃ p, (p = w.position ∨ p = 0) ∧ p ≤ w.buffer.length ∧
          p + ev.length ≤ C ∧ w2.position = p + ev.length ∧
          w2.buffer.take (p + ev.length) = w.buffer.take p ++ ev)) ∧
    (∀ (w : LogWorker) (q1 : List LogEntry), BufInv C w →
      ∃ w2 q2, Save w q1 = some (w2, q2) ∧ BufInv C w2 ∧ w2.position = 0) ∧
    (∃ wf qf sf sent, ∃ (gs : List (List (List Byte))) (last : List (List Byte)),
      ListenForLogEventTrace C (NewLogWorker id logdir C) q st evs = some (wf, qf, sf, sent) ∧
      BufInv C wf ∧
      gs.flatten ++ last = evs.filter (fun e => e.length ≤ C) ∧
      sent = gs.map List.flatten ∧
      wf.position = last.flatten.length ∧
      wf.buffer.take wf.position = last.flatten) := by
  refine ⟨newLogWorker_BufInv id logdir C, ?_, ?_, ?_⟩
  · intro w q1 s1 ev hw
    have hp := hw.1
    have hl := hw.2
    by_cases hbig : ev.length > C
    · exact ⟨_, _, _, step_drop C w q1 s1 ev hbig, widen_BufInv C w _ hw, fun hc => by omega⟩
    · have hle : ev.length ≤ C := by omega
      by_cases hfit : ev.length + w.position ≤ C
      · refine ⟨_, _, _, step_fit C w q1 s1 ev hw hfit, ⟨?_, ?_⟩, fun _ =>
          ⟨w.position, Or.inl rfl, by omega, by omega, rfl, ?_⟩⟩
        · show w.position + ev.length ≤ C
          omega
        · show (copyAt w.buffer w.position ev).length = C
          rw [copyAt_length _ _ _ (by omega)]; exact hl
        · show (copyAt w.buffer w.position ev).take (w.position + ev.length) = _
          rw [copyAt_take _ _ _ (by omega)]
      · have hover : ev.length + w.position > C := by omega
        refine ⟨_, _, _, step_flush C w q1 s1 ev hw hle hover, ⟨?_, ?_⟩, fun _ =>
          ⟨0, Or.inr rfl, by omega, by omega, rfl, ?_⟩⟩
        · show 0 + ev.length ≤ C
          omega
        · show (copyAt w.buffer 0 ev).length = C
          rw [copyAt_length _ _ _ (by omega)]; exact hl
        · show (copyAt w.buffer 0 ev).take (0 + ev.length) = _
          rw [copyAt_take _ _ _ (by omega)]
  · intro w q1 hw
    have hp := hw.1
    have hl := hw.2
    by_cases hz : w.position = 0
    · exact ⟨w, q1, by unfold Save; rw [if_pos hz], hw, hz⟩
    · refine ⟨{ w with position := 0 }, q1 ++ [{ arr := w.arr, len := w.position }], ?_,
        ⟨Nat.zero_le _, hl⟩, rfl⟩
      unfold Save
      rw [if_neg hz, if_pos (by omega)]
  · obtain ⟨wf, qf, sf, sent, gs, last, hrun, hinv, -, hgs, hsent, -, hbuf, hpos, -⟩ :=
      run_groups C evs (NewLogWorker id logdir C) q st [] (newLogWorker_BufInv id logdir C) rfl
    rw [List.nil_append] at hgs
    exact ⟨wf, qf, sf, sent, gs, last, hrun, hinv, hgs, hsent, hpos, hbuf⟩

/-- C2, evaluated on the code: a worker of capacity 16 holds "abcde"; `Save` sends the entry,
which reads "abcde"; the next pass copies the event "xy" into the same backing array and the
entry, still on the hand-off channel, now reads "xycde". -/
theorem saved_entry_overwritten :
    (ListenForLogEvent 16 (NewLogWorker 0 "logs" 16) [] NewStats [bytes "abcde"]).bind
      (fun r0 => (Save r0.1 r0.2.1).bind
        (fun r1 => (ListenForLogEventStep 16 r1.1 r1.2 r0.2.2 (bytes "xy")).map
          (fun r2 => (r1.2, r1.2.map (fun e => e.read r1.1),
                      r2.2.1, r2.2.1.map (fun e => e.read r2.1))))) =
    some ([{ arr := 0, len := 5 }], [bytes "abcde"],
          [{ arr := 0, len := 5 }], [bytes "xycde"]) := by
  decide

theorem logAll_buf (events : List (List Byte)) :
    ∀ (ch : Chan), ch.buf.length ≤ ch.cap →
      (LogAll ch events).cap = ch.cap ∧
      (LogAll ch events).buf = (ch.buf ++ events).take ch.cap := by
  induction events with
  | nil =>
    intro ch h
    simp only [LogAll, List.append_nil, true_and]
    rw [List.take_of_length_le h]
  | cons ev rest ih =>
    intro ch h
    unfold LogAll Log
    by_cases hroom : ch.buf.length < ch.cap
    · rw [if_pos hroom]
      obtain ⟨h1, h2⟩ := ih { ch with buf := ch.buf ++ [ev] }
        (by show (ch.buf ++ [ev]).length ≤ ch.cap; simp; omega)
      refine ⟨h1, ?_⟩
      rw [h2]; simp
    · rw [if_neg hroom]
      obtain ⟨h1, h2⟩ := ih ch h
      refine ⟨h1, ?_⟩
      rw [h2, List.take_append_of_le_length (by omega),
        List.take_append_of_le_length (by omega)]

/-- C9: `Log` on a channel with no receiver. With room the event is appended at the tail, with no
wait; on a full channel the call waits `5 * time.Second`, returns, and the channel is unchanged.
Successive submissions leave the first events that fit, in order. With capacity 2 and three
submissions the channel ends holding the first two events. -/
theorem log_waits_then_drops (event : List Byte) (ch : Chan) (events : List (List Byte))
    (h : ch.buf.length ≤ ch.cap) :
    (ch.buf.length < ch.cap → Log event ch = ({ cap := ch.cap, buf := ch.buf ++ [event] }, 0)) ∧
    (ch.buf.length = ch.cap → Log event ch = (ch, 5 * Second)) ∧
    (LogAll ch events).cap = ch.cap ∧
    (LogAll ch events).buf = (ch.buf ++ events).take ch.cap ∧
    LogAll { cap := 2, buf := [] } [bytes "one", bytes "two", bytes "three"] =
      { cap := 2, buf := [bytes "one", bytes "two"] } ∧
    Log (bytes "three") { cap := 2, buf := [bytes "one", bytes "two"] } =
      ({ cap := 2, buf := [bytes "one", bytes "two"] }, 5000000000) := by
  refine ⟨?_, ?_, (logAll_buf events ch h).1, (logAll_buf events ch h).2, by decide, by decide⟩
  · intro hroom
    unfold Log
    rw [if_pos hroom]
  · intro hfull
    unfold Log
    rw [if_neg (by omega)]

/-- Witness of C9: a full channel of capacity 2 and two further submissions. -/
theorem log_waits_then_drops_witness :
    ([bytes "one", bytes "two"].length ≤ 2) ∧
    (LogAll { cap := 2, buf := [bytes "one", bytes "two"] } [bytes "three", bytes "four"]).buf =
      ([bytes "one", bytes "two"] ++ [bytes "three", bytes "four"]).take 2 :=
  ⟨by decide, (log_waits_then_drops (bytes "three")
    { cap := 2, buf := [bytes "one", bytes "two"] } [bytes "three", bytes "four"]
    (by decide)).2.2.2.1⟩

/-- Counterexample to C5: the key is "k1" until instant 10 and "k2" afterwards. The first entry
is written at instant 1 (key "k1"). The next pass reads the key at instant 2, waits, and
receives the second entry at instant 20, when the key is "k2": the entry is appended to
`logs/k1`, and no file `logs/k2` exists. -/
theorem rotation_missed_while_waiting :
    keySwitch 10 "k1" "k2" (entryPass 0 0 1 (bytes "first")).tDequeue = "k1" ∧
    keySwitch 10 "k1" "k2" (entryPass 2 2 20 (bytes "second")).tDequeue = "k2" ∧
    (FileWritter (keySwitch 10 "k1" "k2") (startConfig "logs/") noFiles
        [entryPass 0 0 1 (bytes "first"), entryPass 2 2 20 (bytes "second")]).map
      (fun r => (r.1.CurrentLogFileHandle, r.1.CurrentLogFile, r.2 "logs/k1", r.2 "logs/k2")) =
    some (some "logs/k1", "k1", some (bytes "firstsecond"), none) := by
  decide

theorem logPath_inj (conf : Config) (a b : String) (h : logPath conf a = logPath conf b) :
    a = b := by
  unfold logPath at h
  have := congrArg String.data h
  simp only [String.data_append, List.append_assoc] at this
  exact String.ext (List.append_cancel_left (List.append_cancel_left this))

/-- C5 as amended: two consecutive passes of the writer loop. The first pass reads the key `K1`
(at its head and, if it rotates, in `os.Create`), with the file `<LogDir>/K1` open if `K1` is
already the remembered name: the first entry is written to `<LogDir>/K1`. The second pass reads
the key `K2 ≠ K1` at its head, before it waits for the entry, and again in `os.Create`, which
succeeds: the second entry is written to the newly created `<LogDir>/K2`, a path other than the
first entry's, and the first file is as the first pass left it. -/
theorem rotation_at_loop_head (key : Nat → String) (conf : Config) (fs : Files) (p1 p2 : Pass)
    (K1 K2 : String)
    (hopen : conf.CurrentLogFile = K1 → conf.CurrentLogFileHandle = some (logPath conf K1))
    (h1 : key p1.tCheck = K1) (h1c : key p1.tCreate = K1) (hc1 : p1.createFails = false)
    (h2 : key p2.tCheck = K2) (h2c : key p2.tCreate = K2) (hc2 : p2.createFails = false)
    (hne : K2 ≠ K1) :
    ∃ conf1 fs1 conf2 fs2,
      FileWritterStep key conf fs p1 = some (conf1, fs1) ∧
      conf1.CurrentLogFileHandle = some (logPath conf K1) ∧
      fs1 (logPath conf K1) =
        (if conf.CurrentLogFile = K1 then fs (logPath conf K1) else some []).map
          (fun old => old ++ p1.data.take p1.nb) ∧
      FileWritterStep key conf1 fs1 p2 = some (conf2, fs2) ∧
      conf2.CurrentLogFileHandle = some (logPath conf K2) ∧
      conf2.CurrentLogFile = K2 ∧
      logPath conf K2 ≠ logPath conf K1 ∧
      fs2 (logPath conf K2) = some (p2.data.take p2.nb) ∧
      fs2 (logPath conf K1) = fs1 (logPath conf K1) := by
  have hpne : logPath conf K2 ≠ logPath conf K1 := fun hc => hne (logPath_inj conf _ _ hc)
  have hpne' : logPath conf K1 ≠ logPath conf K2 := fun hc => hpne hc.symm
  have hstep1 : ∃ conf1 fs1, FileWritterStep key conf fs p1 = some (conf1, fs1) ∧
      conf1.CurrentLogFileHandle = some (logPath conf K1) ∧ conf1.CurrentLogFile = K1 ∧
      conf1.LogDir = conf.LogDir ∧
      fs1 (logPath conf K1) =
        (if conf.CurrentLogFile = K1 then fs (logPath conf K1) else some []).map
          (fun old => old ++ p1.data.take p1.nb) := by
    by_cases hsame : conf.CurrentLogFile = K1
    · refine ⟨conf, fileWrite fs (logPath conf K1) (p1.data.take p1.nb), ?_, hopen hsame, hsame,
        rfl, ?_⟩
      · unfold FileWritterStep
        simp only [h1, hsame, ne_eq, not_true_eq_false, if_false]
        rw [hopen hsame]
      · simp [fileWrite, hsame]
    · refine ⟨{ conf with CurrentLogFileHandle := some (logPath conf K1), CurrentLogFile := K1 },
        fileWrite (osCreate fs (logPath conf K1)) (logPath conf K1) (p1.data.take p1.nb), ?_,
        rfl, rfl, rfl, ?_⟩
      · unfold FileWritterStep
        have hk : K1 ≠ conf.CurrentLogFile := fun hc => hsame hc.symm
        simp only [h1, h1c, hc1, ne_eq, hk, not_false_eq_true, if_true, Bool.false_eq_true,
          if_false]
        rfl
      · simp [fileWrite, osCreate, hsame]
  obtain ⟨conf1, fs1, hs1, hh1, hn1, hd1, hf1⟩ := hstep1
  have hlp : ∀ k, logPath conf1 k = logPath conf k := fun k => by unfold logPath; rw [hd1]
  refine ⟨conf1, fs1,
    ⟨conf1.LogDir, some (logPath conf K2), K2, conf1.ForceFsync, conf1.Debug⟩,
    fileWrite (osCreate fs1 (logPath conf K2)) (logPath conf K2) (p2.data.take p2.nb),
    hs1, hh1, hf1, ?_, rfl, rfl, hpne, ?_, ?_⟩
  · unfold FileWritterStep
    have hk : K2 ≠ conf1.CurrentLogFile := by rw [hn1]; exact hne
    simp only [h2, h2c, hc2, ne_eq, hk, not_false_eq_true, if_true, Bool.false_eq_true,
      if_false]
    have := hlp K2
    unfold logPath at this
    rw [this]
    rfl
  · simp [fileWrite, osCreate]
  · simp [fileWrite, osCreate, hpne']

/-- Witness of C5 as amended: the key is "k1" until instant 10 and "k2" afterwards; the second
pass starts at instant 12. -/
theorem rotation_at_loop_head_witness :
    ∃ conf1 fs1 conf2 fs2,
      FileWritterStep (keySwitch 10 "k1" "k2") (startConfig "logs/") noFiles
          (entryPass 0 0 1 (bytes "first")) = some (conf1, fs1) ∧
      conf1.CurrentLogFileHandle = some (logPath (startConfig "logs/") "k1") ∧
      fs1 (logPath (startConfig "logs/") "k1") =
        (if (startConfig "logs/").CurrentLogFile = "k1"
          then noFiles (logPath (startConfig "logs/") "k1") else some []).map
          (fun old => old ++ (bytes "first").take 5) ∧
      FileWritterStep (keySwitch 10 "k1" "k2") conf1 fs1
          (entryPass 12 12 20 (bytes "second")) = some (conf2, fs2) ∧
      conf2.CurrentLogFileHandle = some (logPath (startConfig "logs/") "k2") ∧
      conf2.CurrentLogFile = "k2" ∧
      logPath (startConfig "logs/") "k2" ≠ logPath (startConfig "logs/") "k1" ∧
      fs2 (logPath (startConfig "logs/") "k2") =
        some ((bytes "second").take 6) ∧
      fs2 (logPath (startConfig "logs/") "k1") = fs1 (logPath (startConfig "logs/") "k1") :=
  rotation_at_loop_head (keySwitch 10 "k1" "k2") (startConfig "logs/") noFiles
    (entryPass 0 0 1 (bytes "first")) (entryPass 12 12 20 (bytes "second")) "k1" "k2"
    (by decide) (by decide) (by decide) (by decide) (by decide) (by decide) (by decide)
    (by decide)

/-- C10, evaluated on the code: the key is "a" until instant 5 and "b" afterwards, and the first
pass reads it at instant 4 at its head and at instant 5 inside `os.Create`. The file is created
at `logs/b` while the remembered name is "a", and the entry "first" is written to `logs/b`. The
next pass reads "b", which differs from the remembered "a": `logs/b` is created a second time
and holds only "second". -/
theorem rotation_key_read_twice :
    (FileWritter (keySwitch 5 "a" "b") (startConfig "logs/") noFiles
        [entryPass 4 5 6 (bytes "first")]).map
      (fun r => (r.1.CurrentLogFile, r.1.CurrentLogFileHandle, r.2 "logs/a", r.2 "logs/b")) =
      some ("a", some "logs/b", none, some (bytes "first")) ∧
    (FileWritter (keySwitch 5 "a" "b") (startConfig "logs/") noFiles
        [entryPass 4 5 6 (bytes "first"), entryPass 7 7 20 (bytes "second")]).map
      (fun r => (r.1.CurrentLogFile, r.1.CurrentLogFileHandle, r.2 "logs/a", r.2 "logs/b")) =
      some ("b", some "logs/b", none, some (bytes "second")) := by
  refine ⟨?_, ?_⟩
  · decide
  · decide

/-! ## The statistics block under several workers -/

theorem updateStats_total (w : LogWorker) (st : Stats) :
    (UpdateStats w st).TotalRequestsServed = (st.TotalRequestsServed + 1) % 2 ^ 64 := by
  unfold UpdateStats; dsimp only; split_ifs <;> rfl

/-- One pass of a worker within the buffer invariant, seen from the statistics block. -/
theorem step_stats (C : Nat) (w : LogWorker) (q : List LogEntry) (st : Stats) (ev : List Byte)
    (hw : BufInv C w) :
    ∃ w1 q1, ListenForLogEventStep C w q st ev =
        some (w1, q1, if ev.length ≤ C then UpdateStats (widen w ev.length) st else st) ∧
      BufInv C w1 ∧
      w1.CurrMinRequestSize = (widen w ev.length).CurrMinRequestSize ∧
      w1.CurrMaxRequestSize = (widen w ev.length).CurrMaxRequestSize := by
  have hp := hw.1
  have hl := hw.2
  by_cases hbig : ev.length > C
  · refine ⟨widen w ev.length, q, ?_, widen_BufInv C w _ hw, rfl, rfl⟩
    rw [step_drop C w q st ev hbig, if_neg (by omega)]
  · have hle : ev.length ≤ C := by omega
    by_cases hfit : ev.length + w.position ≤ C
    · refine ⟨⟨(widen w ev.length).FileRoot, (widen w ev.length).arr,
          copyAt w.buffer w.position ev, w.position + ev.length,
          (widen w ev.length).RequestsHandled, (widen w ev.length).CurrMinRequestSize,
          (widen w ev.length).CurrMaxRequestSize⟩, q, ?_, ⟨?_, ?_⟩, rfl, rfl⟩
      · rw [step_fit C w q st ev hw hfit, if_pos hle]; rfl
      · show w.position + ev.length ≤ C
        omega
      · show (copyAt w.buffer w.position ev).length = C
        rw [copyAt_length _ _ _ (by omega)]; exact hl
    · have hover : ev.length + w.position > C := by omega
      refine ⟨⟨(widen w ev.length).FileRoot, (widen w ev.length).arr,
          copyAt w.buffer 0 ev, 0 + ev.length,
          (widen w ev.length).RequestsHandled, (widen w ev.length).CurrMinRequestSize,
          (widen w ev.length).CurrMaxRequestSize⟩,
        q ++ [{ arr := (widen w ev.length).arr, len := w.position }], ?_, ⟨?_, ?_⟩, rfl, rfl⟩
      · rw [step_flush C w q st ev hw hle hover, if_pos hle]; rfl
      · show 0 + ev.length ≤ C
        omega
      · show (copyAt w.buffer 0 ev).length = C
        rw [copyAt_length _ _ _ (by omega)]; exact hl

/-- One pass of the system, for a worker that exists, when every worker is within the buffer
invariant. -/
theorem system_step (C : Nat) (s : System) (i : Nat) (ev : List Byte)
    (hall : ∀ w ∈ s.workers, BufInv C w) (hi : i < s.workers.length) :
    ∃ w w1 q1, s.workers[i]? = some w ∧
      s.step C i ev = some ⟨s.workers.set i w1, q1,
        if ev.length ≤ C then UpdateStats (widen w ev.length) s.stats else s.stats⟩ ∧
      BufInv C w1 ∧
      w1.CurrMinRequestSize = (widen w ev.length).CurrMinRequestSize ∧
      w1.CurrMaxRequestSize = (widen w ev.length).CurrMaxRequestSize := by
  have hget : s.workers[i]? = some (s.workers[i]) := List.getElem?_eq_getElem hi
  have hmem : s.workers[i] ∈ s.workers := List.getElem_mem hi
  obtain ⟨w1, q1, hstep, hinv, hmin, hmax⟩ :=
    step_stats C (s.workers[i]) s.pending s.stats ev (hall _ hmem)
  refine ⟨s.workers[i], w1, q1, hget, ?_, hinv, hmin, hmax⟩
  unfold System.step
  rw [hget]
  dsimp only
  rw [hstep]

theorem set_BufInv (C : Nat) (ws : List LogWorker) (i : Nat) (w1 : LogWorker)
    (hall : ∀ w ∈ ws, BufInv C w) (h1 : BufInv C w1) : ∀ w ∈ ws.set i w1, BufInv C w := by
  intro w hw
  rcases List.mem_or_eq_of_mem_set hw with h | h
  · exact hall w h
  · rw [h]; exact h1

theorem run_total (C : Nat) (sched : List (Nat × List Byte)) :
    ∀ (s : System), (∀ w ∈ s.workers, BufInv C w) →
      (∀ p ∈ sched, p.1 < s.workers.length) →
      s.stats.TotalRequestsServed < 2 ^ 64 →
      ∃ sf, s.run C sched = some sf ∧
        sf.stats.TotalRequestsServed =
          (s.stats.TotalRequestsServed + (sched.filter (fun p => p.2.length ≤ C)).length)
            % 2 ^ 64 := by
  induction sched with
  | nil =>
    intro s _ _ ht
    exact ⟨s, rfl, by simp only [List.filter_nil, List.length_nil, Nat.add_zero]; omega⟩
  | cons p rest ih =>
    intro s hall hvalid ht
    obtain ⟨i, ev⟩ := p
    obtain ⟨w, w1, q1, -, hstep, hinv, -, -⟩ :=
      system_step C s i ev hall (hvalid (i, ev) (List.mem_cons_self _ _))
    unfold System.run
    rw [hstep]
    dsimp only
    obtain ⟨sf, hrun, htot⟩ := ih
      ⟨s.workers.set i w1, q1,
        if ev.length ≤ C then UpdateStats (widen w ev.length) s.stats else s.stats⟩
      (set_BufInv C s.workers i w1 hall hinv)
      (fun p hp => by
        show p.1 < (s.workers.set i w1).length
        rw [List.length_set]; exact hvalid p (List.mem_cons_of_mem _ hp))
      (by
        show (if ev.length ≤ C then UpdateStats (widen w ev.length) s.stats
          else s.stats).TotalRequestsServed < 2 ^ 64
        split_ifs
        · rw [updateStats_total]; omega
        · exact ht)
    refine ⟨sf, hrun, ?_⟩
    rw [htot]
    show ((if ev.length ≤ C then UpdateStats (widen w ev.length) s.stats
      else s.stats).TotalRequestsServed + _) % 2 ^ 64 = _
    by_cases hle : ev.length ≤ C
    · rw [if_pos hle, updateStats_total, List.filter_cons_of_pos (by simpa using hle),
        List.length_cons]
      omega
    · rw [if_neg hle, List.filter_cons_of_neg (by simpa using hle)]

theorem startSystem_BufInv (n : Nat) (logdir : String) (C : Nat) :
    ∀ w ∈ (startSystem n logdir C).workers, BufInv C w := by
  intro w hw
  simp only [startSystem, List.mem_map] at hw
  obtain ⟨i, -, rfl⟩ := hw
  exact newLogWorker_BufInv i logdir C

theorem startSystem_length (n : Nat) (logdir : String) (C : Nat) :
    (startSystem n logdir C).workers.length = n := by
  simp [startSystem]

/-- Counterexample to C7: one worker of capacity 4 receives one event of 5 bytes; one event was
taken from the ingestion channel and processed, and `TotalRequestsServed` is 0. -/
theorem oversized_event_not_counted :
    [((0 : Nat), bytes "vwxyz")].length = 1 ∧
    ((startSystem 1 "logs" 4).run 4 [(0, bytes "vwxyz")]).map
      (fun s => s.stats.TotalRequestsServed) = some 0 := by
  decide

/-- C7 as amended: from the startup state, after the workers have processed the events of any
schedule (any lengths, any number of workers, whole passes in any order),
`TotalRequestsServed` is the number of processed events no longer than the capacity, modulo
`2^64`; when fewer than `2^64` such events were processed it is that number exactly, and over
the prefixes of the schedule the counter never decreases. -/
theorem total_requests_served (n : Nat) (logdir : String) (C : Nat)
    (sched : List (Nat × List Byte)) (hvalid : ∀ p ∈ sched, p.1 < n) :
    ∃ sf, (startSystem n logdir C).run C sched = some sf ∧
      sf.stats.TotalRequestsServed =
        (sched.filter (fun p => p.2.length ≤ C)).length % 2 ^ 64 ∧
      ((sched.filter (fun p => p.2.length ≤ C)).length < 2 ^ 64 →
        sf.stats.TotalRequestsServed = (sched.filter (fun p => p.2.length ≤ C)).length ∧
        ∀ k, ∃ sk sk1, (startSystem n logdir C).run C (sched.take k) = some sk ∧
          (startSystem n logdir C).run C (sched.take (k + 1)) = some sk1 ∧
          sk.stats.TotalRequestsServed ≤ sk1.stats.TotalRequestsServed) := by
  have key : ∀ sch : List (Nat × List Byte), (∀ p ∈ sch, p.1 < n) →
      ∃ sf, (startSystem n logdir C).run C sch = some sf ∧
        sf.stats.TotalRequestsServed =
          (sch.filter (fun p => p.2.length ≤ C)).length % 2 ^ 64 := by
    intro sch hv
    obtain ⟨sf, hrun, htot⟩ := run_total C sch (startSystem n logdir C)
      (startSystem_BufInv n logdir C)
      (fun p hp => by rw [startSystem_length]; exact hv p hp)
      (by show (0 : Nat) < 2 ^ 64; omega)
    refine ⟨sf, hrun, ?_⟩
    rw [htot]
    show (0 + _) % 2 ^ 64 = _
    rw [Nat.zero_add]
  obtain ⟨sf, hrun, htot⟩ := key sched hvalid
  refine ⟨sf, hrun, htot, ?_⟩
  intro hlt
  refine ⟨by rw [htot, Nat.mod_eq_of_lt hlt], ?_⟩
  intro k
  obtain ⟨sk, hk, htk⟩ := key (sched.take k) (fun p hp => hvalid p (List.mem_of_mem_take hp))
  obtain ⟨sk1, hk1, htk1⟩ :=
    key (sched.take (k + 1)) (fun p hp => hvalid p (List.mem_of_mem_take hp))
  refine ⟨sk, sk1, hk, hk1, ?_⟩
  have hsub1 : ((sched.take (k + 1)).filter (fun p => p.2.length ≤ C)).length ≤
      (sched.filter (fun p => p.2.length ≤ C)).length :=
    ((List.take_sublist (k + 1) sched).filter _).length_le
  have hsub : ((sched.take k).filter (fun p => p.2.length ≤ C)).length ≤
      ((sched.take (k + 1)).filter (fun p => p.2.length ≤ C)).length := by
    have : sched.take k = (sched.take (k + 1)).take k := by
      rw [List.take_take]; congr 1; omega
    rw [this]
    exact ((List.take_sublist k _).filter _).length_le
  rw [htk, htk1, Nat.mod_eq_of_lt (by omega), Nat.mod_eq_of_lt (by omega)]
  exact hsub

/-- Witness of C7 as amended: two workers of capacity 4; the events "ab" and "cd" go to worker
0, the 5-byte event "vwxyz" and the event "e" to worker 1; three events are counted. -/
theorem total_requests_served_witness :
    (∀ p ∈ [((0 : Nat), bytes "ab"), (1, bytes "vwxyz"), (0, bytes "cd"), (1, bytes "e")],
      p.1 < 2) ∧
    ∃ sf, (startSystem 2 "logs" 4).run 4
        [(0, bytes "ab"), (1, bytes "vwxyz"), (0, bytes "cd"), (1, bytes "e")] = some sf ∧
      sf.stats.TotalRequestsServed = 3 :=
  ⟨by decide, by
    obtain ⟨sf, hrun, htot, -⟩ := total_requests_served 2 "logs" 4
      [(0, bytes "ab"), (1, bytes "vwxyz"), (0, bytes "cd"), (1, bytes "e")] (by decide)
    exact ⟨sf, hrun, by rw [htot]; decide⟩⟩

theorem toInt32_small (n : Nat) (h : n < 2 ^ 31) : toInt32 (n : Int) = (n : Int) := by
  unfold toInt32
  omega

theorem widen_min (w : LogWorker) (n : Nat) :
    (widen w n).CurrMinRequestSize =
      if w.CurrMinRequestSize = 0 then toInt32 n
      else if toInt32 n < w.CurrMinRequestSize then toInt32 n else w.CurrMinRequestSize := by
  unfold widen; dsimp only; split_ifs <;> rfl

theorem widen_max (w : LogWorker) (n : Nat) :
    (widen w n).CurrMaxRequestSize =
      if w.CurrMaxRequestSize = 0 then toInt32 n
      else if toInt32 n > w.CurrMaxRequestSize then toInt32 n else w.CurrMaxRequestSize := by
  unfold widen; dsimp only; split_ifs <;> rfl

theorem updateStats_max (w : LogWorker) (st : Stats) :
    (UpdateStats w st).CurrMaxRequestSize =
      if w.CurrMaxRequestSize > st.CurrMaxRequestSize then w.CurrMaxRequestSize
      else st.CurrMaxRequestSize := by
  unfold UpdateStats; dsimp only; split_ifs <;> rfl

theorem updateStats_min (w : LogWorker) (st : Stats) :
    (UpdateStats w st).CurrMinRequestSize =
      if st.CurrMinRequestSize = 0 ∨ w.CurrMinRequestSize < st.CurrMinRequestSize
      then w.CurrMinRequestSize else st.CurrMinRequestSize := by
  unfold UpdateStats; dsimp only; split_ifs <;> rfl

theorem seen_head (L : List Nat) (n : Nat) : Seen (n :: L) (n : Int) :=
  ⟨n, List.mem_cons_self _ _, rfl⟩

theorem seen_tail (L : List Nat) (n : Nat) (x : Int) (h : Seen L x) : Seen (n :: L) x := by
  obtain ⟨a, ha, hx⟩ := h
  exact ⟨a, List.mem_cons_of_mem _ ha, hx⟩

theorem seen_pos (L : List Nat) (x : Int) (hL : ∀ l ∈ L, 1 ≤ l) (h : Seen L x) : 1 ≤ x := by
  obtain ⟨a, ha, hx⟩ := h
  have := hL a ha
  omega

theorem workerSeen_tail (L : List Nat) (n : Nat) (w : LogWorker) (h : WorkerSeen L w) :
    WorkerSeen (n :: L) w := by
  rcases h with h | ⟨h1, h2⟩
  · exact Or.inl h
  · exact Or.inr ⟨seen_tail L n _ h1, seen_tail L n _ h2⟩

/-- The trackers of a worker after the head of the loop body, for an event of `n` bytes with
`n < 2^31`: both are among the lengths processed and enclose `n`. -/
theorem widen_seen (L : List Nat) (n : Nat) (w : LogWorker) (hL : ∀ l ∈ L, 1 ≤ l)
    (h31 : n < 2 ^ 31) (hw : WorkerSeen L w) :
    Seen (n :: L) (widen w n).CurrMinRequestSize ∧
    Seen (n :: L) (widen w n).CurrMaxRequestSize ∧
    (widen w n).CurrMinRequestSize ≤ (n : Int) ∧
    (n : Int) ≤ (widen w n).CurrMaxRequestSize := by
  rw [widen_min, widen_max, toInt32_small n h31]
  rcases hw with ⟨h1, h2⟩ | ⟨h1, h2⟩
  · rw [if_pos h1, if_pos h2]
    exact ⟨seen_head L n, seen_head L n, le_refl _, le_refl _⟩
  · have p1 := seen_pos L _ hL h1
    have p2 := seen_pos L _ hL h2
    rw [if_neg (show ¬ w.CurrMinRequestSize = 0 by omega),
      if_neg (show ¬ w.CurrMaxRequestSize = 0 by omega)]
    refine ⟨?_, ?_, ?_, ?_⟩
    · split_ifs
      · exact seen_head L n
      · exact seen_tail L n _ h1
    · split_ifs
      · exact seen_head L n
      · exact seen_tail L n _ h2
    · split_ifs <;> omega
    · split_ifs <;> omega

/-- The extremes of the statistics block after `UpdateStats` by a worker whose trackers are
among the lengths processed and enclose the new length `n`. -/
theorem updateStats_seen (L : List Nat) (n : Nat) (w : LogWorker) (st : Stats)
    (hL : ∀ l ∈ L, 1 ≤ l) (hn : 1 ≤ n)
    (h1 : Seen (n :: L) w.CurrMinRequestSize) (h2 : Seen (n :: L) w.CurrMaxRequestSize)
    (h3 : w.CurrMinRequestSize ≤ (n : Int)) (h4 : (n : Int) ≤ w.CurrMaxRequestSize)
    (hs : StatsSeen L st) : StatsSeen (n :: L) (UpdateStats w st) := by
  have hL1 : ∀ l ∈ n :: L, 1 ≤ l := by
    intro l hl
    rcases List.mem_cons.mp hl with h | h
    · omega
    · exact hL l h
  have q1 := seen_pos _ _ hL1 h1
  have q2 := seen_pos _ _ hL1 h2
  right
  rw [updateStats_min, updateStats_max]
  rcases hs with ⟨_, e1, e2⟩ | ⟨s1, s2, s3⟩
  · rw [if_pos (Or.inl e1), e2, if_pos (by omega)]
    refine ⟨h1, h2, ?_⟩
    intro l hl
    subst_vars
    rcases List.mem_cons.mp hl with h | h
    · subst h; exact ⟨h3, h4⟩
    · exact absurd h (List.not_mem_nil _)
  · have p1 := seen_pos L _ hL s1
    have p2 := seen_pos L _ hL s2
    refine ⟨?_, ?_, ?_⟩
    · split_ifs
      · exact h1
      · exact seen_tail L n _ s1
    · split_ifs
      · exact h2
      · exact seen_tail L n _ s2
    · intro l hl
      rcases List.mem_cons.mp hl with h | h
      · subst h
        constructor
        · split_ifs with c <;> omega
        · split_ifs with c <;> omega
      · have := s3 l h
        constructor
        · split_ifs with c
          · rcases c with c | c <;> omega
          · omega
        · split_ifs with c <;> omega

theorem run_seen (C n : Nat) (sched : List (Nat × List Byte)) :
    ∀ (s : System) (L : List Nat), s.workers.length = n →
      (∀ w ∈ s.workers, BufInv C w ∧ WorkerSeen L w) → StatsSeen L s.stats →
      (∀ l ∈ L, 1 ≤ l) →
      (∀ p ∈ sched,
        p.1 < n ∧ 1 ≤ p.2.length ∧ p.2.length ≤ C ∧ p.2.length < 2 ^ 31) →
      ∃ sf L1, s.run C sched = some sf ∧ StatsSeen L1 sf.stats ∧
        ∀ x, x ∈ L1 ↔ x ∈ sched.map (fun p => p.2.length) ∨ x ∈ L := by
  induction sched with
  | nil =>
    intro s L _ _ hst _ _
    exact ⟨s, L, rfl, hst, fun x => by simp⟩
  | cons p rest ih =>
    intro s L hlen hall hst hL hvalid
    obtain ⟨i, ev⟩ := p
    obtain ⟨hi, h1, hC, h31⟩ := hvalid (i, ev) (List.mem_cons_self _ _)
    obtain ⟨w, w1, q1, hget, hstep, hinv, hmin, hmax⟩ :=
      system_step C s i ev (fun w hw => (hall w hw).1) (by rw [hlen]; exact hi)
    have hw : WorkerSeen L w := (hall w (List.getElem?_mem hget)).2
    obtain ⟨a1, a2, a3, a4⟩ := widen_seen L ev.length w hL h31 hw
    have hL1 : ∀ l ∈ ev.length :: L, 1 ≤ l := by
      intro l hl
      rcases List.mem_cons.mp hl with h | h
      · rw [h]; exact h1
      · exact hL l h
    unfold System.run
    rw [hstep]
    dsimp only
    obtain ⟨sf, L1, hrun, hseen, hmem⟩ := ih
      ⟨s.workers.set i w1, q1,
        if ev.length ≤ C then UpdateStats (widen w ev.length) s.stats else s.stats⟩
      (ev.length :: L)
      (by show (s.workers.set i w1).length = n; rw [List.length_set]; exact hlen)
      (by
        intro x hx
        rcases List.mem_or_eq_of_mem_set hx with h | h
        · exact ⟨(hall x h).1, workerSeen_tail L _ x (hall x h).2⟩
        · rw [h]
          refine ⟨hinv, Or.inr ⟨?_, ?_⟩⟩
          · rw [hmin]; exact a1
          · rw [hmax]; exact a2)
      (by
        show StatsSeen _ (if ev.length ≤ C then UpdateStats (widen w ev.length) s.stats
          else s.stats)
        rw [if_pos hC]
        exact updateStats_seen L ev.length _ s.stats hL h1 a1 a2 a3 a4 hst)
      hL1
      (fun p hp => hvalid p (List.mem_cons_of_mem _ hp))
    refine ⟨sf, L1, hrun, hseen, ?_⟩
    intro x
    rw [hmem x]
    simp only [List.map_cons, List.mem_cons]
    tauto

/-- Counterexample to C6: one worker of capacity 4 processes one event, of 5 bytes. The least
and the greatest length are 5; the statistics block holds `CurrMinRequestSize = 0` and
`CurrMaxRequestSize = 0`. -/
theorem oversized_event_not_in_extremes :
    ([((0 : Nat), bytes "vwxyz")].map (fun p => p.2.length)).min? = some 5 ∧
    ([((0 : Nat), bytes "vwxyz")].map (fun p => p.2.length)).max? = some 5 ∧
    ((startSystem 1 "logs" 4).run 4 [(0, bytes "vwxyz")]).map
      (fun s => (s.stats.CurrMinRequestSize, s.stats.CurrMaxRequestSize)) = some (0, 0) := by
  refine ⟨by decide, by decide, by decide⟩

/-- C6 as amended: from the startup state, after the workers have processed a non-empty
schedule of events whose lengths are at least 1, at most the capacity and below `2^31` (any
order, any assignment to workers, one whole pass per event), the statistics block holds the
least of the lengths in `CurrMinRequestSize` and the greatest in `CurrMaxRequestSize`. -/
theorem min_max_request_size (n : Nat) (logdir : String) (C : Nat)
    (sched : List (Nat × List Byte)) (hne : sched ≠ [])
    (hvalid : ∀ p ∈ sched,
      p.1 < n ∧ 1 ≤ p.2.length ∧ p.2.length ≤ C ∧ p.2.length < 2 ^ 31) :
    ∃ sf lo hi, (startSystem n logdir C).run C sched = some sf ∧
      (sched.map (fun p => p.2.length)).min? = some lo ∧
      (sched.map (fun p => p.2.length)).max? = some hi ∧
      sf.stats.CurrMinRequestSize = (lo : Int) ∧
      sf.stats.CurrMaxRequestSize = (hi : Int) := by
  obtain ⟨sf, L1, hrun, hseen, hmem⟩ := run_seen C n sched (startSystem n logdir C) []
    (startSystem_length n logdir C)
    (fun w hw => ⟨startSystem_BufInv n logdir C w hw, by
      simp only [startSystem, List.mem_map] at hw
      obtain ⟨i, -, rfl⟩ := hw
      exact Or.inl ⟨rfl, rfl⟩⟩)
    (Or.inl ⟨rfl, rfl, rfl⟩)
    (fun l hl => absurd hl (List.not_mem_nil _))
    hvalid
  have hmem1 : ∀ x, x ∈ L1 ↔ x ∈ sched.map (fun p => p.2.length) := by
    intro x; rw [hmem x]; simp
  rcases hseen with ⟨hnil, -, -⟩ | ⟨⟨lo, hlo, elo⟩, ⟨hi, hhi, ehi⟩, hb⟩
  · exfalso
    cases sched with
    | nil => exact hne rfl
    | cons p rest =>
      have : p.2.length ∈ L1 := (hmem1 _).2 (by simp)
      rw [hnil] at this
      exact absurd this (List.not_mem_nil _)
  · refine ⟨sf, lo, hi, hrun, ?_, ?_, elo, ehi⟩
    · rw [List.min?_eq_some_iff']
      refine ⟨(hmem1 lo).1 hlo, ?_⟩
      intro b hbm
      have := (hb b ((hmem1 b).2 hbm)).1
      omega
    · rw [List.max?_eq_some_iff']
      refine ⟨(hmem1 hi).1 hhi, ?_⟩
      intro b hbm
      have := (hb b ((hmem1 b).2 hbm)).2
      omega

/-- Witness of C6 as amended: two workers of capacity 8; lengths 3 and 1 go to worker 0,
lengths 5 and 2 to worker 1, interleaved. -/
theorem min_max_request_size_witness :
    ([((0 : Nat), bytes "abc"), (1, bytes "defgh"), (0, bytes "i"), (1, bytes "jk")] ≠ []) ∧
    (∀ p ∈ [((0 : Nat), bytes "abc"), (1, bytes "defgh"), (0, bytes "i"), (1, bytes "jk")],
      p.1 < 2 ∧ 1 ≤ p.2.length ∧ p.2.length ≤ 8 ∧ p.2.length < 2 ^ 31) ∧
    ∃ sf lo hi, (startSystem 2 "logs" 8).run 8
        [(0, bytes "abc"), (1, bytes "defgh"), (0, bytes "i"), (1, bytes "jk")] = some sf ∧
      ([((0 : Nat), bytes "abc"), (1, bytes "defgh"), (0, bytes "i"), (1, bytes "jk")].map
        (fun p => p.2.length)).min? = some lo ∧
      ([((0 : Nat), bytes "abc"), (1, bytes "defgh"), (0, bytes "i"), (1, bytes "jk")].map
        (fun p => p.2.length)).max? = some hi ∧
      sf.stats.CurrMinRequestSize = (lo : Int) ∧
      sf.stats.CurrMaxRequestSize = (hi : Int) :=
  ⟨by decide, by decide, min_max_request_size 2 "logs" 8
    [(0, bytes "abc"), (1, bytes "defgh"), (0, bytes "i"), (1, bytes "jk")]
    (by decide) (by decide)⟩

end logworker
